import Mathlib

/-!
Verification of functional++ : the algorithm engine and `join`.

A shallow embedding of `src/src/iterate.hpp`, `src/functional++.hpp` and
`src/src/string.hpp`.

Data model:

* A sequence container (`std::vector<T>` and friends) is a `List α`.
* An iterator into a container is a position `Nat`; `container.begin()` is `0`
  and `container.end()` is `container.length`.  Dereferencing the iterator `i`
  of the container `cont` is `cont[i]?`.
* A loop `while (first != last)` over an iterator range is a recursion on the
  distance `last - first`, the number of increments after which `first != last`
  turns false.
* The standard-library algorithms the engine delegates to (`std::transform`,
  `std::remove_if`, `std::find_if`, `std::all_of`, ...) are embedded by their
  reference implementations from the C++ standard library, as loops over
  positions of the one container they read and write.
* `functional++.hpp` and `src/iterate.hpp` define `each`, `map`, `filter` and
  `reduce` with the same bodies (`reduce` iterates `begin()`..`end()` in the one
  and `cbegin()`..`cend()` in the other); one definition stands for both.
* `range` is a template over the position type; its loop is embedded once,
  over an arbitrary `+=` and `<=`, and instantiated at the integers and at
  `w`-bit unsigned positions.  The loop need not terminate, so it carries a fuel
  counter and returns `none` when the fuel runs out.
* The callback of `each` receives each element by reference and may act on
  state outside the container: it maps the outside state and the element to the
  new outside state and the value left in the element.
* Every operation of the engine is declared `noexcept`.  For callbacks that may
  raise, the loops are embedded a second time over `Except`, and `noexcept` turns
  a fault leaving the body into `std::terminate`.
* `is_container` is a compile-time trait over C++ types and is not embedded.
-/

namespace functional

universe u

variable {α : Type u}

/-! ## Standard-library algorithms -/

/-- Standard-library `std::transform(first, last, d_first, op)`, both ranges in the
container `cont`: `while (first != last) *d_first++ = op(*first++);`.
The first argument is the distance `last - first`. -/
def transform (op : α → α) : Nat → Nat → Nat → List α → List α
  | 0, _, _, cont => cont
  | n + 1, first, d_first, cont =>
    match cont[first]? with
    | Option.some x => transform op n (first + 1) (d_first + 1) (cont.set d_first (op x))
    | Option.none => cont

/-- Standard-library `std::find_if(first, last, pred)`:
`for (; first != last; ++first) if (pred(*first)) return first; return last;`.
The first numeric argument is the distance `last - first`. -/
def find_if (pred : α → Bool) (cont : List α) : Nat → Nat → Nat
  | 0, first => first
  | n + 1, first =>
    match cont[first]? with
    | Option.some x => if pred x then first else find_if pred cont n (first + 1)
    | Option.none => first

/-- Standard-library `std::find_if_not(first, last, pred)`: `find_if` with the
predicate negated. -/
def find_if_not (pred : α → Bool) (cont : List α) (n first : Nat) : Nat :=
  find_if (fun x => !pred x) cont n first

/-- The loop of `std::remove_if`:
`for (i = first; ++i != last;) if (!pred(*i)) *first++ = std::move(*i);`
entered after the `++i`; the first argument is the distance `last - i`.
Returns the container and the final `first`. -/
def remove_if_loop (pred : α → Bool) : Nat → Nat → Nat → List α → List α × Nat
  | 0, first, _, cont => (cont, first)
  | n + 1, first, i, cont =>
    match cont[i]? with
    | Option.some x =>
      if pred x then remove_if_loop pred n first (i + 1) cont
      else remove_if_loop pred n (first + 1) (i + 1) (cont.set first x)
    | Option.none => (cont, first)

/-- Standard-library `std::remove_if(cont.begin(), cont.end(), pred)`:
`first = std::find_if(first, last, pred); if (first != last) for (...) ...; return first;`.
Returns the container after the shifts and the returned iterator. -/
def remove_if (pred : α → Bool) (cont : List α) : List α × Nat :=
  let first := find_if pred cont cont.length 0
  if first ≠ cont.length then
    remove_if_loop pred (cont.length - (first + 1)) first (first + 1) cont
  else (cont, first)

/-- Sequence-container member `cont.erase(first, cont.end())`: drops every element
from position `first` on. -/
def erase (cont : List α) (first : Nat) : List α :=
  cont.take first

/-- Standard-library `std::all_of(first, last, pred)`:
`return std::find_if_not(first, last, pred) == last;`. -/
def all_of (pred : α → Bool) (cont : List α) : Bool :=
  find_if_not pred cont cont.length 0 == cont.length

/-- Standard-library `std::any_of(first, last, pred)`:
`return std::find_if(first, last, pred) != last;`. -/
def any_of (pred : α → Bool) (cont : List α) : Bool :=
  find_if pred cont cont.length 0 != cont.length

/-- Standard-library `std::none_of(first, last, pred)`:
`return std::find_if(first, last, pred) == last;`. -/
def none_of (pred : α → Bool) (cont : List α) : Bool :=
  find_if pred cont cont.length 0 == cont.length

/-! ## `iterate.hpp` -/

/-- The `do { *it++ = from; } while ((from += step) <= to);` loop of `range`, over
an arbitrary position type `P` with its `+=` (`add`) and `<=` (`le`).
`*it++ = from` on a back inserter appends `from`.  Returns `none` when the fuel
is used up before the loop exits. -/
def range_loop {P : Type u} {S : Type u} (add : P → S → P) (le : P → P → Bool) :
    Nat → List P → P → P → S → Option (List P)
  | 0, _, _, _, _ => Option.none
  | fuel + 1, container, frm, to_, step =>
    let container := container ++ [frm]
    let frm := add frm step
    if le frm to_ then range_loop add le fuel container frm to_ step
    else Option.some container

/-- The function `range(container, from, to, step)` with the position type instantiated
at unbounded integers, where `from += step` never wraps.  The fixed-width
instantiation, where it wraps, is `range_wrap`. -/
def range (fuel : Nat) (container : List Int) (frm to_ step : Int) : Option (List Int) :=
  range_loop (fun (a b : Int) => a + b) (fun a b => decide (a ≤ b)) fuel container frm to_ step

/-- The loop of `reduce`: `while (it != container.cend()) current = callback(current, *it++);`.
The first numeric argument is the distance `container.cend() - it`. -/
def reduce_loop (callback : α → α → α) (container : List α) : Nat → Nat → α → α
  | 0, _, current => current
  | n + 1, it, current =>
    match container[it]? with
    | Option.some x => reduce_loop callback container n (it + 1) (callback current x)
    | Option.none => current

/-- The function `reduce(container, callback, initial)`. -/
def reduce (container : List α) (callback : α → α → α) (initial : α) : α :=
  reduce_loop callback container container.length 0 initial

/-- The call `reduce(container, callback)`: the default argument `initial = {}`
is the value-initialised element. -/
def reduce_default [Inhabited α] (container : List α) (callback : α → α → α) : α :=
  reduce container callback default

/-- The function `map(container, callback)`:
`std::transform(container.begin(), container.end(), container.begin(), callback)`. -/
def map (container : List α) (callback : α → α) : List α :=
  transform callback container.length 0 0 container

/-- The function `filter(container, callback)`:
`container.erase(std::remove_if(container.begin(), container.end(), callback), container.end())`. -/
def filter (container : List α) (callback : α → Bool) : List α :=
  let r := remove_if callback container
  erase r.1 r.2

/-- The function `every(container, callback)`: `std::all_of` over the container. -/
def every (container : List α) (callback : α → Bool) : Bool :=
  all_of callback container

/-- The function `some(container, callback)`: `std::any_of` over the container. -/
def some (container : List α) (callback : α → Bool) : Bool :=
  any_of callback container

/-- The function `none(container, callback)`: `std::none_of` over the container. -/
def none (container : List α) (callback : α → Bool) : Bool :=
  none_of callback container

/-! ## `string.hpp` -/

/-- The second loop of `join`:
`while (i != end) { stream << delimiter << *i++; result = stream.str(); }`.
`text` is the stream insertion `<<` of an element, `delimiter` the text the
delimiter inserts.  The first numeric argument is the distance `end - i`. -/
def join_loop (text : α → String) (cont : List α) (delimiter : String) :
    Nat → Nat → String → String → String
  | 0, _, _, result => result
  | n + 1, i, stream, result =>
    match cont[i]? with
    | Option.some x =>
      let stream := stream ++ delimiter ++ text x
      join_loop text cont delimiter n (i + 1) stream stream
    | Option.none => result

/-- The overload `join(begin, end, delimiter)` over the positions `first`, `last`
of the container `cont`. -/
def join_range (text : α → String) (cont : List α) (first last : Nat) (delimiter : String) :
    String :=
  let result := ""
  let stream := ""
  if first ≠ last then
    match cont[first]? with
    | Option.some x => join_loop text cont delimiter (last - (first + 1)) (first + 1) (stream ++ text x) result
    | Option.none => result
  else join_loop text cont delimiter (last - first) first stream result

/-- The overload `join(data, delimiter)`: `join(data.begin(), data.end(), delimiter)`. -/
def join (text : α → String) (data : List α) (delimiter : String) : String :=
  join_range text data 0 data.length delimiter


/-! ## `each` -/

universe v

variable {σ : Type u} {ε : Type u}

/-- Standard-library `std::for_each(first, last, f)`:
`for (; first != last; ++first) f(*first);`.
The callback receives the element by reference: from the state `s` outside the
container and the element `x` it yields the new outside state and the value it
leaves in the element (`x` itself when it does not write through its argument).
The first numeric argument is the distance `last - first`. -/
def for_each (f : σ → α → σ × α) : Nat → Nat → List α → σ → List α × σ
  | 0, _, cont, s => (cont, s)
  | n + 1, first, cont, s =>
    match cont[first]? with
    | Option.some x => for_each f n (first + 1) (cont.set first (f s x).2) (f s x).1
    | Option.none => (cont, s)

/-- What a call of `each` leaves behind: the sequence it returns, the
container of the caller, and the state outside the container. -/
structure EachResult (α : Type u) (σ : Type u) where
  /-- The value of the call, `return container;`. -/
  returned : List α
  /-- The container the caller passed, after the call. -/
  container : List α
  /-- The state outside the container, after the call. -/
  state : σ

/-- The function `each(container, callback)`:
`std::for_each(container.begin(), container.end(), callback); return container;`. -/
def each (container : List α) (callback : σ → α → σ × α) (s : σ) : EachResult α σ :=
  let r := for_each callback container.length 0 container s
  { returned := r.1, container := r.1, state := r.2 }

/-! ## `range` beyond the unbounded integers -/

/-- The function `range(container, from, to, step)` over `w`-bit unsigned
positions: `from += step` wraps modulo `2^w`. -/
def range_wrap (w : Nat) (fuel : Nat) (container : List Nat) (frm to_ step : Nat) :
    Option (List Nat) :=
  range_loop (fun (a b : Nat) => (a + b) % 2 ^ w) (fun a b => decide (a ≤ b))
    fuel container frm to_ step

/-- The container after at most `n` iterations of the loop of `range`, and
whether the loop has exited within them. -/
def range_run {P : Type u} {S : Type u} (add : P → S → P) (le : P → P → Bool) :
    Nat → List P → P → P → S → List P × Bool
  | 0, container, _, _, _ => (container, false)
  | n + 1, container, frm, to_, step =>
    let container := container ++ [frm]
    let frm := add frm step
    if le frm to_ then range_run add le n container frm to_ step
    else (container, true)

/-! ## Callbacks that raise

Every operation of the engine is declared `noexcept`.  The bodies below are the
same loops with a callback that either returns or raises a fault `e`
(`Except.error e`); a fault leaves the loop at once. -/

/-- How a call ends. -/
inductive Outcome (ε : Type u) (β : Type v) where
  /-- The call returns a value to the caller. -/
  | returned (value : β) : Outcome ε β
  /-- The call delivers a fault to the caller. -/
  | raised (fault : ε) : Outcome ε β
  /-- The program is ended by `std::terminate`. -/
  | terminated : Outcome ε β

/-- The specifier `noexcept` on a function: a fault that would leave the body
ends the program through `std::terminate`. -/
def noexcept {β : Type v} (body : Except ε β) : Outcome ε β :=
  match body with
  | Except.ok v => Outcome.returned v
  | Except.error _ => Outcome.terminated

/-- The loop of `std::for_each` with a callback that may raise. -/
def for_each_E (f : α → Except ε Unit) (cont : List α) : Nat → Nat → Except ε Unit
  | 0, _ => Except.ok ()
  | n + 1, first =>
    match cont[first]? with
    | Option.some x =>
      match f x with
      | Except.ok _ => for_each_E f cont n (first + 1)
      | Except.error e => Except.error e
    | Option.none => Except.ok ()

/-- The loop of `std::transform` with a callback that may raise; the second
component is the container as the loop leaves it. -/
def transform_E (op : α → Except ε α) : Nat → Nat → Nat → List α → Except ε Unit × List α
  | 0, _, _, cont => (Except.ok (), cont)
  | n + 1, first, d_first, cont =>
    match cont[first]? with
    | Option.some x =>
      match op x with
      | Except.ok y => transform_E op n (first + 1) (d_first + 1) (cont.set d_first y)
      | Except.error e => (Except.error e, cont)
    | Option.none => (Except.ok (), cont)

/-- The loop of `std::find_if` with a predicate that may raise. -/
def find_if_E (pred : α → Except ε Bool) (cont : List α) : Nat → Nat → Except ε Nat
  | 0, first => Except.ok first
  | n + 1, first =>
    match cont[first]? with
    | Option.some x =>
      match pred x with
      | Except.ok b => if b then Except.ok first else find_if_E pred cont n (first + 1)
      | Except.error e => Except.error e
    | Option.none => Except.ok first

/-- The loop of `std::remove_if` with a predicate that may raise. -/
def remove_if_loop_E (pred : α → Except ε Bool) :
    Nat → Nat → Nat → List α → Except ε (List α × Nat)
  | 0, first, _, cont => Except.ok (cont, first)
  | n + 1, first, i, cont =>
    match cont[i]? with
    | Option.some x =>
      match pred x with
      | Except.ok b =>
        if b then remove_if_loop_E pred n first (i + 1) cont
        else remove_if_loop_E pred n (first + 1) (i + 1) (cont.set first x)
      | Except.error e => Except.error e
    | Option.none => Except.ok (cont, first)

/-- The loop of `reduce` with a callback that may raise. -/
def reduce_loop_E (callback : α → α → Except ε α) (container : List α) :
    Nat → Nat → α → Except ε α
  | 0, _, current => Except.ok current
  | n + 1, it, current =>
    match container[it]? with
    | Option.some x =>
      match callback current x with
      | Except.ok v => reduce_loop_E callback container n (it + 1) v
      | Except.error e => Except.error e
    | Option.none => Except.ok current

/-- The function `each(container, callback) noexcept`, callback may raise. -/
def each_E (container : List α) (callback : α → Except ε Unit) : Outcome ε (List α) :=
  noexcept (match for_each_E callback container container.length 0 with
    | Except.ok _ => Except.ok container
    | Except.error e => Except.error e)

/-- The function `map(container, callback) noexcept`, callback may raise: how the
call ends, and the container of the caller (passed by reference) as the call
leaves it. -/
def map_E (container : List α) (callback : α → Except ε α) :
    Outcome ε (List α) × List α :=
  let r := transform_E callback container.length 0 0 container
  (noexcept (match r.1 with
    | Except.ok _ => Except.ok r.2
    | Except.error e => Except.error e), r.2)

/-- The function `filter(container, callback) noexcept`, callback may raise. -/
def filter_E (container : List α) (callback : α → Except ε Bool) : Outcome ε (List α) :=
  noexcept (match find_if_E callback container container.length 0 with
    | Except.ok first =>
      if first ≠ container.length then
        match remove_if_loop_E callback (container.length - (first + 1)) first (first + 1)
            container with
        | Except.ok r => Except.ok (erase r.1 r.2)
        | Except.error e => Except.error e
      else Except.ok (erase container first)
    | Except.error e => Except.error e)

/-- The function `reduce(container, callback, initial) noexcept`, callback may raise. -/
def reduce_E (container : List α) (callback : α → α → Except ε α) (initial : α) :
    Outcome ε α :=
  noexcept (reduce_loop_E callback container container.length 0 initial)

/-- The function `every(container, callback) noexcept`, callback may raise:
`std::all_of` is `find_if_not(...) == last`. -/
def every_E (container : List α) (callback : α → Except ε Bool) : Outcome ε Bool :=
  noexcept (match find_if_E (fun x => match callback x with
      | Except.ok b => Except.ok (!b)
      | Except.error e => Except.error e) container container.length 0 with
    | Except.ok first => Except.ok (first == container.length)
    | Except.error e => Except.error e)

/-- The function `some(container, callback) noexcept`, callback may raise:
`std::any_of` is `find_if(...) != last`. -/
def some_E (container : List α) (callback : α → Except ε Bool) : Outcome ε Bool :=
  noexcept (match find_if_E callback container container.length 0 with
    | Except.ok first => Except.ok (first != container.length)
    | Except.error e => Except.error e)

/-- The function `none(container, callback) noexcept`, callback may raise:
`std::none_of` is `find_if(...) == last`. -/
def none_E (container : List α) (callback : α → Except ε Bool) : Outcome ε Bool :=
  noexcept (match find_if_E callback container container.length 0 with
    | Except.ok first => Except.ok (first == container.length)
    | Except.error e => Except.error e)


/-! ## Shared lemmas on positions -/

theorem drop_of_getElem? {l : List α} {i : Nat} {x : α} (h : l[i]? = Option.some x) :
    l.drop i = x :: l.drop (i + 1) := by
  obtain ⟨hi, hx⟩ := List.getElem?_eq_some.mp h
  rw [List.drop_eq_getElem_cons hi, hx]

theorem getElem?_of_lt_length {l : List α} {i : Nat} (h : i < l.length) :
    ∃ x, l[i]? = Option.some x :=
  ⟨l[i], List.getElem?_eq_getElem h⟩

/-! ## `map` -/

theorem transform_getElem? (op : α → α) (n : Nat) :
    ∀ (i : Nat) (cont : List α) (j : Nat),
      (transform op n i i cont)[j]? =
        if i ≤ j ∧ j < i + n then (cont[j]?).map op else cont[j]? := by
  induction n with
  | zero =>
    intro i cont j
    have h0 : ¬ (i ≤ j ∧ j < i + 0) := by omega
    rw [if_neg h0]
    rfl
  | succ n ih =>
    intro i cont j
    unfold transform
    cases hx : cont[i]? with
    | none =>
      have hlen : cont.length ≤ i := List.getElem?_eq_none_iff.mp hx
      simp only []
      split
      · next hj =>
        have : cont[j]? = Option.none := List.getElem?_eq_none_iff.mpr (by omega)
        simp [this]
      · rfl
    | some x =>
      simp only []
      obtain ⟨hi, hxi⟩ := List.getElem?_eq_some.mp hx
      rw [ih, List.getElem?_set]
      by_cases hij : i = j
      · subst hij
        have h1 : ¬ (i + 1 ≤ i ∧ i < i + 1 + n) := by omega
        have h2 : i ≤ i ∧ i < i + (n + 1) := by omega
        simp [h1, h2, hi, hx]
      · by_cases hc : i + 1 ≤ j ∧ j < i + 1 + n
        · have h2 : i ≤ j ∧ j < i + (n + 1) := by omega
          simp [hc, h2, hij]
        · have h2 : ¬ (i ≤ j ∧ j < i + (n + 1)) := by omega
          simp [hc, h2, hij]

/-- C1: `map(S, f)` has exactly `|S|` elements and its element at every position `i`
is `f` applied to the original `S[i]`; it is the positional map of `S` under `f`. -/
theorem map_positional (S : List α) (f : α → α) :
    (map S f).length = S.length ∧
    (∀ i : Nat, (map S f)[i]? = (S[i]?).map f) ∧
    map S f = List.map f S := by
  have key : ∀ i : Nat, (map S f)[i]? = (S[i]?).map f := by
    intro i
    unfold map
    rw [transform_getElem?]
    split
    · rfl
    · next h =>
      have : S.length ≤ i := by omega
      simp [List.getElem?_eq_none_iff.mpr this]
  have heq : map S f = List.map f S := by
    apply List.ext_getElem?
    intro i
    rw [key, List.getElem?_map]
  exact ⟨by rw [heq, List.length_map], key, heq⟩


/-! ## `find_if` and `filter` -/

theorem find_if_bounds (pred : α → Bool) (cont : List α) (n : Nat) :
    ∀ first : Nat, first ≤ find_if pred cont n first ∧ find_if pred cont n first ≤ first + n := by
  induction n with
  | zero => intro first; simp [find_if]
  | succ n ih =>
    intro first
    unfold find_if
    cases hx : cont[first]? with
    | none => simp only []; omega
    | some x =>
      simp only []
      split
      · omega
      · have := ih (first + 1); omega

theorem find_if_split (pred : α → Bool) (cont : List α) (n : Nat) :
    ∀ first : Nat, first + n = cont.length →
      cont.take (find_if pred cont n first) ++
          (cont.drop (find_if pred cont n first + 1)).filter (fun x => !pred x) =
        cont.take first ++ (cont.drop first).filter (fun x => !pred x) := by
  induction n with
  | zero =>
    intro first h
    have h1 : cont.drop first = [] := List.drop_eq_nil_iff.mpr (by omega)
    have h2 : cont.drop (first + 1) = [] := List.drop_eq_nil_iff.mpr (by omega)
    simp [find_if, h1, h2]
  | succ n ih =>
    intro first h
    obtain ⟨x, hx⟩ := getElem?_of_lt_length (show first < cont.length by omega)
    unfold find_if
    rw [hx]
    simp only []
    rw [drop_of_getElem? hx]
    by_cases hp : pred x = true
    · simp [hp]
    · rw [if_neg hp, ih (first + 1) (by omega), List.take_succ, hx]
      simp [hp]

theorem remove_if_loop_take (pred : α → Bool) (n : Nat) :
    ∀ (first i : Nat) (cont : List α), first ≤ i → i + n = cont.length →
      (remove_if_loop pred n first i cont).1.take (remove_if_loop pred n first i cont).2 =
        cont.take first ++ (cont.drop i).filter (fun x => !pred x) := by
  induction n with
  | zero =>
    intro first i cont _ h
    have h1 : cont.drop i = [] := List.drop_eq_nil_iff.mpr (by omega)
    simp [remove_if_loop, h1]
  | succ n ih =>
    intro first i cont hfi h
    obtain ⟨x, hx⟩ := getElem?_of_lt_length (show i < cont.length by omega)
    unfold remove_if_loop
    rw [hx]
    simp only []
    rw [drop_of_getElem? hx]
    by_cases hp : pred x = true
    · rw [if_pos hp, ih first (i + 1) cont (by omega) (by omega)]
      simp [hp]
    · rw [if_neg hp, ih (first + 1) (i + 1) (cont.set first x) (by omega)
        (by rw [List.length_set]; omega)]
      have hd : (cont.set first x).drop (i + 1) = cont.drop (i + 1) := by
        rw [List.drop_set, if_pos (by omega)]
      have ht : (cont.set first x).take (first + 1) = cont.take first ++ [x] := by
        have ht0 : (cont.set first x).take first = cont.take first := by
          rw [List.set_take]
          exact List.set_eq_of_length_le (by rw [List.length_take]; omega)
        rw [List.take_succ, List.getElem?_set, ht0]
        simp [show first < cont.length by omega]
      rw [hd, ht]
      simp [hp]

theorem filter_eq (S : List α) (p : α → Bool) :
    filter S p = List.filter (fun x => !p x) S := by
  have hsplit := find_if_split p S S.length 0 (by omega)
  have hb := find_if_bounds p S S.length 0
  simp only [List.take_zero, List.drop_zero, List.nil_append] at hsplit
  unfold filter erase remove_if
  simp only []
  by_cases hr : find_if p S S.length 0 = S.length
  · rw [if_neg (by simpa using hr)]
    have hz : S.drop (S.length + 1) = [] := List.drop_eq_nil_iff.mpr (by omega)
    rw [hr, hz] at hsplit
    rw [← hsplit, hr]
    simp
  · rw [if_pos hr, remove_if_loop_take p _ _ _ S (by omega) (by omega), hsplit]

/-- C2: `filter(S, p)` is the order-preserving subsequence of the elements `x` of
`S` with `p(x) == false`, its length is at most `|S|`, and filtering `{0,1,2,3,4}`
with `item % 2 == 0` gives `{1,3}`. -/
theorem filter_removes_matching (S : List α) (p : α → Bool) :
    filter S p = List.filter (fun x => !p x) S ∧
    (∀ x, x ∈ filter S p ↔ (x ∈ S ∧ p x = false)) ∧
    List.Sublist (filter S p) S ∧
    (filter S p).length ≤ S.length ∧
    filter [0, 1, 2, 3, 4] (fun item : Int => item % 2 == 0) = [1, 3] := by
  refine ⟨filter_eq S p, ?_, ?_, ?_, by decide⟩
  · intro x
    rw [filter_eq, List.mem_filter]
    simp
  · rw [filter_eq]
    exact List.filter_sublist S
  · rw [filter_eq]
    exact List.length_filter_le _ S


/-! ## `reduce` -/

theorem reduce_loop_foldl (callback : α → α → α) (container : List α) (n : Nat) :
    ∀ (it : Nat) (current : α), it + n = container.length →
      reduce_loop callback container n it current =
        List.foldl callback current (container.drop it) := by
  induction n with
  | zero =>
    intro it current h
    have h1 : container.drop it = [] := List.drop_eq_nil_iff.mpr (by omega)
    simp [reduce_loop, h1]
  | succ n ih =>
    intro it current h
    obtain ⟨x, hx⟩ := getElem?_of_lt_length (show it < container.length by omega)
    unfold reduce_loop
    rw [hx]
    simp only []
    rw [ih (it + 1) _ (by omega), drop_of_getElem? hx, List.foldl_cons]

/-- C3: `reduce(S, combine, v)` is the strict left fold of `combine` over `S` from
`v`: `v` on the empty sequence, `combine(v, a)` on `[a]`,
`combine(combine(v, a), b)` on `[a, b]`; with the initial value omitted it starts
from the default element, so `reduce({0,1,2,3,4}, +)` is `10`, and `20` from the
initial value `10`. -/
theorem reduce_left_fold (S : List α) (combine : α → α → α) (v : α) :
    reduce S combine v = List.foldl combine v S ∧
    reduce [] combine v = v ∧
    (∀ a, reduce [a] combine v = combine v a) ∧
    (∀ a b, reduce [a, b] combine v = combine (combine v a) b) ∧
    reduce_default [0, 1, 2, 3, 4] (fun current next : Int => current + next) = 10 ∧
    reduce [0, 1, 2, 3, 4] (fun current next : Int => current + next) 10 = 20 := by
  refine ⟨?_, rfl, fun _ => rfl, fun _ _ => rfl, by decide, by decide⟩
  unfold reduce
  rw [reduce_loop_foldl combine S S.length 0 v (by omega), List.drop_zero]

/-! ## `every`, `some`, `none` -/

theorem find_if_eq_length_iff (pred : α → Bool) (cont : List α) (n : Nat) :
    ∀ first : Nat, first + n = cont.length →
      (find_if pred cont n first = cont.length ↔ ∀ x ∈ cont.drop first, pred x = false) := by
  induction n with
  | zero =>
    intro first h
    have h1 : cont.drop first = [] := List.drop_eq_nil_iff.mpr (by omega)
    simp only [find_if, h1, List.not_mem_nil, false_implies, implies_true, iff_true]
    omega
  | succ n ih =>
    intro first h
    obtain ⟨x, hx⟩ := getElem?_of_lt_length (show first < cont.length by omega)
    unfold find_if
    rw [hx]
    simp only []
    rw [drop_of_getElem? hx]
    by_cases hp : pred x = true
    · rw [if_pos hp]
      constructor
      · intro hfirst; omega
      · intro hall
        have := hall x (List.mem_cons_self x _)
        rw [hp] at this
        exact absurd this (by decide)
    · rw [if_neg hp, ih (first + 1) (by omega)]
      simp [hp]

/-- C8: `every(S, p)` is true if and only if `p` holds for all elements of `S`;
in particular `every([], p)` is true. -/
theorem every_iff_all (S : List α) (p : α → Bool) :
    (every S p = true ↔ ∀ x ∈ S, p x = true) ∧ every ([] : List α) p = true := by
  refine ⟨?_, rfl⟩
  unfold every all_of find_if_not
  rw [beq_iff_eq, find_if_eq_length_iff _ S S.length 0 (by omega), List.drop_zero]
  simp

/-- C9: `some(S, p)` is true if and only if `p` holds for at least one element of
`S`; in particular `some([], p)` is false. -/
theorem some_iff_exists (S : List α) (p : α → Bool) :
    (some S p = true ↔ ∃ x ∈ S, p x = true) ∧ some ([] : List α) p = false := by
  refine ⟨?_, rfl⟩
  unfold some any_of
  rw [bne_iff_ne, Ne, find_if_eq_length_iff _ S S.length 0 (by omega), List.drop_zero]
  simp

/-- C10: `none(S, p)` is true if and only if `p` holds for no element of `S`;
in particular `none([], p)` is true. -/
theorem none_iff_no_element (S : List α) (p : α → Bool) :
    (none S p = true ↔ ∀ x ∈ S, p x = false) ∧ none ([] : List α) p = true := by
  refine ⟨?_, rfl⟩
  unfold none none_of
  rw [beq_iff_eq, find_if_eq_length_iff _ S S.length 0 (by omega), List.drop_zero]


/-! ## `join` -/

theorem join_loop_go (text : α → String) (cont : List α) (delimiter : String) (n : Nat) :
    ∀ (i : Nat) (stream : String), i + n = cont.length →
      join_loop text cont delimiter n i stream stream =
        String.intercalate.go stream delimiter ((cont.drop i).map text) := by
  induction n with
  | zero =>
    intro i stream h
    have h1 : cont.drop i = [] := List.drop_eq_nil_iff.mpr (by omega)
    simp [join_loop, h1, String.intercalate.go]
  | succ n ih =>
    intro i stream h
    obtain ⟨x, hx⟩ := getElem?_of_lt_length (show i < cont.length by omega)
    unfold join_loop
    rw [hx]
    simp only []
    rw [ih (i + 1) _ (by omega), drop_of_getElem? hx, List.map_cons, String.intercalate.go]

theorem join_loop_succ (text : α → String) (cont : List α) (delimiter : String) (n i : Nat)
    (stream result : String) (h : i + (n + 1) = cont.length) :
    join_loop text cont delimiter (n + 1) i stream result =
      String.intercalate.go stream delimiter ((cont.drop i).map text) := by
  obtain ⟨x, hx⟩ := getElem?_of_lt_length (show i < cont.length by omega)
  unfold join_loop
  rw [hx]
  simp only []
  rw [join_loop_go text cont delimiter n (i + 1) _ (by omega), drop_of_getElem? hx,
    List.map_cons, String.intercalate.go]

theorem intercalate_go_data (d : String) (l : List String) :
    ∀ acc : String, (String.intercalate.go acc d l).data =
      acc.data ++ (l.map (fun t => d.data ++ t.data)).flatten := by
  induction l with
  | nil => intro acc; simp [String.intercalate.go]
  | cons t l ih =>
    intro acc
    rw [String.intercalate.go, ih]
    simp [String.data_append, List.append_assoc]

theorem intersperse_flatten (d : List Char) (x : List Char) (l : List (List Char)) :
    (List.intersperse d (x :: l)).flatten = x ++ (l.map (fun t => d ++ t)).flatten := by
  induction l generalizing x with
  | nil => simp
  | cons y l ih =>
    rw [List.intersperse_cons₂, List.flatten_cons, List.flatten_cons, ih]
    simp

/-- C6: on a sequence of two or more elements `join(S, d)` is the texts of the
elements in order with `d` between each pair of consecutive ones and no leading
or trailing delimiter; `join(["a","b","c"], "-")` is `"a-b-c"`. -/
theorem join_two_or_more (text : α → String) (a b : α) (rest : List α) (d : String) :
    join text (a :: b :: rest) d = String.intercalate d ((a :: b :: rest).map text) ∧
    (join text (a :: b :: rest) d).data =
      (List.intersperse d.data ((a :: b :: rest).map (fun e => (text e).data))).flatten ∧
    join text (a :: b :: rest) d =
      List.foldl (fun acc e => acc ++ d ++ text e) (text a) (b :: rest) ∧
    join id ["a", "b", "c"] "-" = "a-b-c" := by
  have h1 : join text (a :: b :: rest) d =
      String.intercalate d ((a :: b :: rest).map text) := by
    unfold join join_range
    simp only [List.length_cons, Nat.zero_add]
    rw [if_pos (by omega)]
    simp only [List.getElem?_cons_zero]
    rw [show rest.length + 1 + 1 - 1 = rest.length + 1 by omega,
      join_loop_succ text _ d rest.length 1 _ _ (by simp only [List.length_cons]; omega)]
    simp [String.intercalate]
  refine ⟨h1, ?_, ?_, by decide⟩
  · rw [h1, List.map_cons, String.intercalate, intercalate_go_data]
    rw [show (a :: b :: rest).map (fun e => (text e).data) =
      (text a).data :: ((b :: rest).map text).map String.data by simp]
    rw [intersperse_flatten]
    simp [List.map_map, Function.comp_def]
  · rw [h1, List.map_cons, String.intercalate]
    generalize text a = acc
    generalize b :: rest = l
    induction l generalizing acc with
    | nil => simp [String.intercalate.go]
    | cons t l ih => rw [List.map_cons, String.intercalate.go, ih, List.foldl_cons]

/-- C7: on a sequence of fewer than two elements `join` returns the empty string:
`join([], d) == ""` and `join([a], d) == ""` for every element `a`. -/
theorem join_fewer_than_two (text : α → String) (d : String) :
    join text ([] : List α) d = "" ∧
    (∀ a : α, join text [a] d = "") ∧
    (∀ S : List α, S.length < 2 → join text S d = "") := by
  refine ⟨rfl, fun _ => rfl, ?_⟩
  intro S hS
  match S, hS with
  | [], _ => rfl
  | [_], _ => rfl
  | _ :: _ :: _, h => simp only [List.length_cons] at h; omega


/-! ## `range` -/

theorem range_count (to_ step : Int) (hstep : 1 ≤ step) (k : Nat) :
    ∀ (fuel : Nat) (S : List Int) (frm : Int),
      frm + k * step ≤ to_ → to_ < frm + (k + 1) * step → k < fuel →
      range fuel S frm to_ step =
        Option.some (S ++ (List.range (k + 1)).map (fun j : Nat => frm + j * step)) := by
  induction k with
  | zero =>
    intro fuel S frm hle hlt hfuel
    obtain ⟨f, rfl⟩ : ∃ f, fuel = f + 1 := ⟨fuel - 1, by omega⟩
    have hexit : ¬ (frm + step ≤ to_) := by
      simp only [Nat.cast_zero, zero_add, one_mul] at hlt
      omega
    simp [range, range_loop, hexit, List.range_succ]
  | succ k ih =>
    intro fuel S frm hle hlt hfuel
    obtain ⟨f, rfl⟩ : ∃ f, fuel = f + 1 := ⟨fuel - 1, by omega⟩
    have hk : (0 : Int) ≤ (k : Int) * step := mul_nonneg (Int.ofNat_nonneg k) (by omega)
    push_cast at hle hlt
    have hcont : frm + step ≤ to_ := by nlinarith
    have hrec := ih f (S ++ [frm]) (frm + step) (by nlinarith) (by nlinarith) (by omega)
    unfold range at hrec ⊢
    unfold range_loop
    simp only [hcont, decide_True, if_true]
    rw [hrec, List.range_succ_eq_map (k + 1), List.map_cons, List.map_map]
    have hfun : ((fun j : Nat => frm + (j : Int) * step) ∘ Nat.succ) =
        (fun j : Nat => frm + step + (j : Int) * step) := by
      funext j
      simp only [Function.comp_apply, Nat.succ_eq_add_one]
      push_cast
      ring
    rw [hfun]
    simp

/-- Over unbounded integers, for `from <= to` and `step >= 1`: `range` (given enough
fuel to finish) appends exactly `from + k*step` for `k = 0 .. floor((to - from)/step)`,
in increasing order; every appended value is `<= to` and the last one plus `step`
exceeds `to`. -/
theorem range_ascending_unbounded (S : List Int) (frm to_ step : Int) (fuel : Nat)
    (hft : frm ≤ to_) (hstep : 1 ≤ step) (hfuel : ((to_ - frm) / step).toNat < fuel) :
    range fuel S frm to_ step =
      Option.some (S ++ (List.range (((to_ - frm) / step).toNat + 1)).map
        (fun k : Nat => frm + k * step)) ∧
    List.Pairwise (fun x y : Int => x < y)
      ((List.range (((to_ - frm) / step).toNat + 1)).map (fun k : Nat => frm + k * step)) ∧
    (∀ v ∈ (List.range (((to_ - frm) / step).toNat + 1)).map (fun k : Nat => frm + k * step),
      v ≤ to_) ∧
    to_ < frm + (((to_ - frm) / step).toNat : Int) * step + step ∧
    range 5 S 0 4 1 = Option.some (S ++ [0, 1, 2, 3, 4]) ∧
    range 3 S 0 4 2 = Option.some (S ++ [0, 2, 4]) := by
  have hq : (0 : Int) ≤ (to_ - frm) / step := Int.ediv_nonneg (by omega) (by omega)
  have hcast : ((((to_ - frm) / step).toNat : Nat) : Int) = (to_ - frm) / step :=
    Int.toNat_of_nonneg hq
  have hlow : (to_ - frm) / step * step ≤ to_ - frm := Int.ediv_mul_le _ (by omega)
  have hhigh : to_ - frm < ((to_ - frm) / step + 1) * step :=
    Int.lt_ediv_add_one_mul_self _ (by omega)
  refine ⟨?_, ?_, ?_, ?_, ?_, ?_⟩
  · apply range_count to_ step hstep
    · rw [hcast]; omega
    · rw [hcast]; omega
    · exact hfuel
  · rw [List.pairwise_map]
    refine (List.pairwise_lt_range _).imp ?_
    intro i j hij
    have : (i : Int) < (j : Int) := by exact_mod_cast hij
    nlinarith
  · intro v hv
    obtain ⟨k, hk, rfl⟩ := List.mem_map.mp hv
    have hk2 : k < ((to_ - frm) / step).toNat + 1 := List.mem_range.mp hk
    have hk3 : (k : Int) ≤ (to_ - frm) / step := by rw [← hcast]; exact_mod_cast (by omega)
    nlinarith
  · rw [hcast]; linarith
  · simp [range, range_loop]
  · simp [range, range_loop]

/-- Over unbounded integers, for `from > to` and a non-negative `step`: `range`
appends exactly one value, `from`. -/
theorem range_descending_unbounded (S : List Int) (frm to_ step : Int) (fuel : Nat)
    (hft : to_ < frm) (hstep : 0 ≤ step) :
    range (fuel + 1) S frm to_ step = Option.some (S ++ [frm]) ∧
    range 1 S 5 1 1 = Option.some (S ++ [5]) := by
  have hexit : ¬ (frm + step ≤ to_) := by omega
  constructor
  · simp [range, range_loop, hexit]
  · simp [range, range_loop]

/-! ## `each` -/

theorem set_of_getElem? {l : List α} {i : Nat} {x : α} (h : l[i]? = Option.some x) :
    l.set i x = l := by
  apply List.ext_getElem?
  intro j
  rw [List.getElem?_set]
  by_cases hij : i = j
  · subst hij
    obtain ⟨hi, _⟩ := List.getElem?_eq_some.mp h
    simp [hi, h]
  · simp [hij]

theorem for_each_state (f : σ → α → σ × α) (n : Nat) :
    ∀ (first : Nat) (cont : List α) (s : σ), first + n = cont.length →
      (for_each f n first cont s).2 =
        List.foldl (fun s x => (f s x).1) s (cont.drop first) := by
  induction n with
  | zero =>
    intro first cont s h
    have h1 : cont.drop first = [] := List.drop_eq_nil_iff.mpr (by omega)
    simp [for_each, h1]
  | succ n ih =>
    intro first cont s h
    obtain ⟨x, hx⟩ := getElem?_of_lt_length (show first < cont.length by omega)
    unfold for_each
    rw [hx]
    simp only []
    rw [ih (first + 1) _ _ (by rw [List.length_set]; omega), List.drop_set,
      if_pos (by omega), drop_of_getElem? hx, List.foldl_cons]

theorem for_each_container (f : σ → α → σ × α) (hpure : ∀ s x, (f s x).2 = x) (n : Nat) :
    ∀ (first : Nat) (cont : List α) (s : σ), (for_each f n first cont s).1 = cont := by
  induction n with
  | zero => intro first cont s; rfl
  | succ n ih =>
    intro first cont s
    unfold for_each
    cases hx : cont[first]? with
    | none => rfl
    | some x =>
      simp only []
      rw [hpure, set_of_getElem? hx, ih]

/-- C12: for a callback that does not write through its argument, `each(S, f)`
returns a sequence with the same elements in the same order as `S` (same length,
equal at every position), and `S` itself is left unchanged. -/
theorem each_returns_same (S : List α) (f : σ → α → σ × α) (s : σ)
    (hpure : ∀ s x, (f s x).2 = x) :
    (each S f s).returned = S ∧
    (each S f s).returned.length = S.length ∧
    (∀ i : Nat, (each S f s).returned[i]? = S[i]?) ∧
    (each S f s).container = S := by
  have h : (for_each f S.length 0 S s).1 = S := for_each_container f hpure _ _ _ _
  have hr : (each S f s).returned = S := h
  have hc : (each S f s).container = S := h
  exact ⟨hr, by rw [hr], fun i => by rw [hr], hc⟩

/-- C12, at `S = [1, 2, 3]` with a callback that adds its argument to a running sum. -/
theorem each_returns_same_witness :
    (each [1, 2, 3] (fun (sum : Nat) (x : Nat) => (sum + x, x)) 0).returned = [1, 2, 3] :=
  (each_returns_same [1, 2, 3] (fun (sum : Nat) (x : Nat) => (sum + x, x)) 0
    (fun _ _ => rfl)).1

/-- C13: `each(S, f)` invokes `f` exactly once per element, in the order of `S`:
the state outside the container ends as the left-to-right threading of the
effect of `f` through `e1, ..., en`; a callback that records its arguments
records exactly `e1, ..., en`, whatever it writes back; nothing is invoked on
the empty sequence. -/
theorem each_invokes_in_order (S : List α) (f : σ → α → σ × α) (s : σ) :
    (each S f s).state = List.foldl (fun s x => (f s x).1) s S ∧
    (∀ (g : α → α) (log : List α),
      (each S (fun (log : List α) (x : α) => (log ++ [x], g x)) log).state = log ++ S) ∧
    (each ([] : List α) f s).state = s := by
  have key : ∀ (σ' : Type u) (f' : σ' → α → σ' × α) (s' : σ'),
      (each S f' s').state = List.foldl (fun s x => (f' s x).1) s' S := by
    intro σ' f' s'
    unfold each
    simp only []
    rw [for_each_state f' S.length 0 S s' (by omega), List.drop_zero]
  refine ⟨key σ f s, ?_, rfl⟩
  intro g log
  rw [key]
  simp only []
  generalize S = l
  induction l generalizing log with
  | nil => simp
  | cons a l ih => rw [List.foldl_cons, ih]; simp

/-! ## `range` only appends -/

theorem range_loop_append {P : Type u} {T : Type u} (add : P → T → P) (le : P → P → Bool)
    (to_ : P) (step : T) (fuel : Nat) :
    ∀ (S : List P) (frm : P),
      range_loop add le fuel S frm to_ step =
        Option.map (fun gen => S ++ gen) (range_loop add le fuel [] frm to_ step) := by
  induction fuel with
  | zero => intro S frm; rfl
  | succ fuel ih =>
    intro S frm
    unfold range_loop
    simp only []
    split
    · rw [ih (S ++ [frm]), ih ([] ++ [frm]), Option.map_map]
      congr 1
      funext gen
      simp
    · simp

theorem range_loop_head {P : Type u} {T : Type u} (add : P → T → P) (le : P → P → Bool)
    (to_ : P) (step : T) (fuel : Nat) (frm : P) (gen : List P)
    (h : range_loop add le fuel [] frm to_ step = Option.some gen) :
    ∃ rest, gen = frm :: rest := by
  cases fuel with
  | zero => simp [range_loop] at h
  | succ fuel =>
    unfold range_loop at h
    simp only [] at h
    split at h
    · rw [range_loop_append] at h
      obtain ⟨g, _, hg⟩ := Option.map_eq_some'.mp h
      exact ⟨g, by rw [← hg]; simp⟩
    · exact ⟨[], by simpa using h.symm⟩

/-- C14: whenever `range` terminates, the resulting sequence is `S` followed by
the generated values: `S` is a prefix (every earlier element unchanged, at its
position), the generated values start with `from` and do not depend on `S`, and
the length is `|S|` plus their number, at least `|S| + 1`. -/
theorem range_only_appends {P : Type u} {T : Type u} (add : P → T → P) (le : P → P → Bool)
    (fuel : Nat) (S : List P) (frm to_ : P) (step : T) (R : List P)
    (h : range_loop add le fuel S frm to_ step = Option.some R) :
    ∃ gen : List P,
      range_loop add le fuel [] frm to_ step = Option.some gen ∧
      R = S ++ gen ∧
      List.IsPrefix S R ∧
      (∀ i : Nat, i < S.length → R[i]? = S[i]?) ∧
      R.length = S.length + gen.length ∧
      S.length + 1 ≤ R.length := by
  rw [range_loop_append] at h
  obtain ⟨gen, hgen, hR⟩ := Option.map_eq_some'.mp h
  obtain ⟨rest, hrest⟩ := range_loop_head add le to_ step fuel frm gen hgen
  subst hR
  refine ⟨gen, hgen, rfl, List.prefix_append S gen, ?_, List.length_append S gen, ?_⟩
  · intro i hi
    exact List.getElem?_append_left hi
  · rw [List.length_append, hrest, List.length_cons]
    omega

/-- C14, at `range([7], 0, 4, 2)` over the integers, which returns `[7, 0, 2, 4]`. -/
theorem range_only_appends_witness :
    ∃ gen : List Int,
      range 3 [] 0 4 2 = Option.some gen ∧
      [7, 0, 2, 4] = [7] ++ gen ∧
      List.IsPrefix ([7] : List Int) [7, 0, 2, 4] ∧
      (∀ i : Nat, i < ([7] : List Int).length → ([7, 0, 2, 4] : List Int)[i]? = [7][i]?) ∧
      ([7, 0, 2, 4] : List Int).length = ([7] : List Int).length + gen.length ∧
      ([7] : List Int).length + 1 ≤ ([7, 0, 2, 4] : List Int).length :=
  range_only_appends (fun (a b : Int) => a + b) (fun a b => decide (a ≤ b)) 3 [7] 0 4 2
    [7, 0, 2, 4] (by decide)

/-! ## `filter` against its header comment -/

/-- C15: on `{0,1,2,3,4}` with the test `item % 2 == 0`, `filter` returns `{1,3}`, the
elements that fail the test; the elements that pass it are `{0,2,4}`. -/
theorem filter_keeps_failing_elements :
    filter [0, 1, 2, 3, 4] (fun item : Int => item % 2 == 0) = [1, 3] ∧
    List.filter (fun item : Int => item % 2 == 0) [0, 1, 2, 3, 4] = [0, 2, 4] ∧
    filter [0, 1, 2, 3, 4] (fun item : Int => item % 2 == 0) ≠
      List.filter (fun item : Int => item % 2 == 0) [0, 1, 2, 3, 4] := by
  decide

/-! ## Termination of `range` -/

theorem range_loop_of_run {P : Type u} {T : Type u} (add : P → T → P) (le : P → P → Bool)
    (to_ : P) (step : T) (fuel : Nat) :
    ∀ (S : List P) (frm : P),
      range_loop add le fuel S frm to_ step =
        if (range_run add le fuel S frm to_ step).2 = true
        then Option.some (range_run add le fuel S frm to_ step).1 else Option.none := by
  induction fuel with
  | zero => intro S frm; rfl
  | succ fuel ih =>
    intro S frm
    unfold range_loop range_run
    simp only []
    split
    · exact ih _ _
    · rfl

theorem range_never_exits (to_ step : Int) (hstep : step ≤ 0) (fuel : Nat) :
    ∀ (S : List Int) (frm : Int), frm + step ≤ to_ →
      range fuel S frm to_ step = Option.none := by
  induction fuel with
  | zero => intro S frm _; rfl
  | succ fuel ih =>
    intro S frm h
    have hrec := ih (S ++ [frm]) (frm + step) (by omega)
    unfold range at hrec ⊢
    unfold range_loop
    simp only [h, decide_True, if_true]
    exact hrec

theorem range_run_zero_step (to_ : Int) (frm : Int) (h : frm ≤ to_) (n : Nat) :
    ∀ S : List Int,
      range_run (fun (a b : Int) => a + b) (fun a b => decide (a ≤ b)) n S frm to_ 0 =
        (S ++ List.replicate n frm, false) := by
  induction n with
  | zero => intro S; simp [range_run]
  | succ n ih =>
    intro S
    unfold range_run
    simp only [add_zero, h, decide_True, if_true]
    rw [ih, List.replicate_succ]
    simp

/-- C17: over unbounded integers `range(S, from, to, step)` terminates if and only
if `step >= 1` or `from + step > to`; it terminates for every `from` and `to`
when `step >= 1`; with `step == 0` and `from <= to` it never terminates, and
after any number `n` of iterations the loop is still running, having appended
`from` `n` times. -/
theorem range_terminates_iff (S : List Int) (frm to_ step : Int) :
    ((∃ fuel : Nat, (range fuel S frm to_ step).isSome = true) ↔
      (1 ≤ step ∨ to_ < frm + step)) ∧
    (1 ≤ step → ∃ fuel : Nat, (range fuel S frm to_ step).isSome = true) ∧
    (step = 0 → frm ≤ to_ → ∀ fuel : Nat, range fuel S frm to_ step = Option.none) ∧
    (step = 0 → frm ≤ to_ → ∀ n : Nat,
      range_run (fun (a b : Int) => a + b) (fun a b => decide (a ≤ b)) n S frm to_ step =
        (S ++ List.replicate n frm, false)) := by
  have hpos : 1 ≤ step → ∃ fuel : Nat, (range fuel S frm to_ step).isSome = true := by
    intro hstep
    by_cases hft : frm ≤ to_
    · have hq : (0 : Int) ≤ (to_ - frm) / step := Int.ediv_nonneg (by omega) (by omega)
      have hcast : ((((to_ - frm) / step).toNat : Nat) : Int) = (to_ - frm) / step :=
        Int.toNat_of_nonneg hq
      have hlow : (to_ - frm) / step * step ≤ to_ - frm := Int.ediv_mul_le _ (by omega)
      have hhigh : to_ - frm < ((to_ - frm) / step + 1) * step :=
        Int.lt_ediv_add_one_mul_self _ (by omega)
      refine ⟨((to_ - frm) / step).toNat + 1, ?_⟩
      rw [range_count to_ step hstep ((to_ - frm) / step).toNat _ S frm
        (by rw [hcast]; omega) (by rw [hcast]; omega) (by omega)]
      rfl
    · have hexit : ¬ (frm + step ≤ to_) := by omega
      exact ⟨1, by simp [range, range_loop, hexit]⟩
  refine ⟨⟨?_, ?_⟩, hpos, ?_, ?_⟩
  · rintro ⟨fuel, hfuel⟩
    by_contra hcon
    rw [range_never_exits to_ step (by omega) fuel S frm (by omega)] at hfuel
    simp at hfuel
  · rintro (hstep | hgt)
    · exact hpos hstep
    · have hexit : ¬ (frm + step ≤ to_) := by omega
      exact ⟨1, by simp [range, range_loop, hexit]⟩
  · intro h0 hft fuel
    exact range_never_exits to_ step (by omega) fuel S frm (by omega)
  · intro h0 hft n
    subst h0
    exact range_run_zero_step to_ frm hft n S

/-! ## `range` over `w`-bit positions -/

theorem range_wrap_count (w to_ step : Nat) (hw : to_ + step < 2 ^ w) (k : Nat) :
    ∀ (fuel : Nat) (S : List Nat) (frm : Nat),
      frm + k * step ≤ to_ → to_ < frm + (k + 1) * step → k < fuel →
      range_wrap w fuel S frm to_ step =
        Option.some (S ++ (List.range (k + 1)).map (fun j : Nat => frm + j * step)) := by
  induction k with
  | zero =>
    intro fuel S frm hle hlt hfuel
    obtain ⟨f, rfl⟩ : ∃ f, fuel = f + 1 := ⟨fuel - 1, by omega⟩
    simp only [Nat.zero_mul, Nat.add_zero, Nat.zero_add, Nat.one_mul] at hle hlt
    have hmod : (frm + step) % 2 ^ w = frm + step := Nat.mod_eq_of_lt (by omega)
    have hexit : ¬ (frm + step ≤ to_) := by omega
    simp [range_wrap, range_loop, hmod, hexit, List.range_succ]
  | succ k ih =>
    intro fuel S frm hle hlt hfuel
    obtain ⟨f, rfl⟩ : ∃ f, fuel = f + 1 := ⟨fuel - 1, by omega⟩
    simp only [Nat.add_mul, Nat.one_mul] at hle hlt
    have hmod : (frm + step) % 2 ^ w = frm + step := Nat.mod_eq_of_lt (by omega)
    have hcont : frm + step ≤ to_ := by omega
    have hrec := ih f (S ++ [frm]) (frm + step) (by omega)
      (by rw [Nat.add_mul, Nat.one_mul]; omega) (by omega)
    unfold range_wrap at hrec ⊢
    unfold range_loop
    simp only [hmod, hcont, decide_True, if_true]
    rw [hrec, List.range_succ_eq_map (k + 1), List.map_cons, List.map_map]
    have hfun : ((fun j : Nat => frm + j * step) ∘ Nat.succ) =
        (fun j : Nat => frm + step + j * step) := by
      funext j
      simp only [Function.comp_apply, Nat.succ_eq_add_one]
      ring
    rw [hfun]
    simp

/-- C18: with `w`-bit unsigned positions whose addition wraps modulo `2^w`, for
`from <= to`, `step >= 1` and `to + step < 2^w`, `range` terminates and appends
exactly `from + k*step` for `k = 0 .. floor((to - from)/step)`, the values it
appends over unbounded integers; no appended value has wrapped and every one
lies in `[from, to]`. -/
theorem range_wrap_exact (w : Nat) (S : List Nat) (frm to_ step fuel : Nat)
    (hft : frm ≤ to_) (hstep : 1 ≤ step) (hw : to_ + step < 2 ^ w)
    (hfuel : (to_ - frm) / step < fuel) :
    range_wrap w fuel S frm to_ step =
      Option.some (S ++ (List.range ((to_ - frm) / step + 1)).map
        (fun k : Nat => frm + k * step)) ∧
    range fuel (S.map (fun v : Nat => (v : Int))) frm to_ step =
      Option.some ((S ++ (List.range ((to_ - frm) / step + 1)).map
        (fun k : Nat => frm + k * step)).map (fun v : Nat => (v : Int))) ∧
    (∀ v ∈ (List.range ((to_ - frm) / step + 1)).map (fun k : Nat => frm + k * step),
      frm ≤ v ∧ v ≤ to_ ∧ v < 2 ^ w) := by
  have hlow : (to_ - frm) / step * step ≤ to_ - frm := Nat.div_mul_le_self _ _
  have hhigh : to_ - frm < (to_ - frm) / step * step + step :=
    Nat.lt_div_mul_add (by omega)
  have h1 : frm + (to_ - frm) / step * step ≤ to_ := by omega
  have h2 : to_ < frm + ((to_ - frm) / step + 1) * step := by
    rw [Nat.add_mul, Nat.one_mul]; omega
  refine ⟨range_wrap_count w to_ step hw _ fuel S frm h1 h2 hfuel, ?_, ?_⟩
  · rw [range_count (to_ : Int) (step : Int) (by exact_mod_cast hstep) ((to_ - frm) / step)
      fuel _ (frm : Int) (by exact_mod_cast h1) (by exact_mod_cast h2) hfuel]
    simp [List.map_append, List.map_map, Function.comp_def]
  · intro v hv
    obtain ⟨k, hk, rfl⟩ := List.mem_map.mp hv
    have hk2 : k < (to_ - frm) / step + 1 := List.mem_range.mp hk
    have hk3 : k * step ≤ (to_ - frm) / step * step := Nat.mul_le_mul_right _ (by omega)
    refine ⟨Nat.le_add_right _ _, by omega, by omega⟩

/-- C18, at 8-bit positions: `range(S, 249, 253, 2)` appends `[249, 251, 253]`. -/
theorem range_wrap_exact_witness :
    range_wrap 8 3 [7] 249 253 2 =
      Option.some ([7] ++ (List.range ((253 - 249) / 2 + 1)).map
        (fun k : Nat => 249 + k * 2)) :=
  (range_wrap_exact 8 [7] 249 253 2 3 (by decide) (by decide) (by decide) (by decide)).1

/-! ## Relations between the aggregations and `filter` -/

/-- C19: `none(S, p) == !some(S, p)`, `every(S, p) == none(S, x -> !p(x))` and
`every(S, p) == !some(S, x -> !p(x))`. -/
theorem aggregation_duality (S : List α) (p : α → Bool) :
    none S p = !some S p ∧
    every S p = none S (fun x => !p x) ∧
    every S p = !some S (fun x => !p x) := by
  refine ⟨?_, rfl, ?_⟩
  · unfold none some none_of any_of
    simp [bne]
  · unfold every some all_of any_of find_if_not
    simp [bne]

theorem none_true_iff (S : List α) (p : α → Bool) :
    none S p = true ↔ ∀ x ∈ S, p x = false := by
  unfold none none_of
  rw [beq_iff_eq, find_if_eq_length_iff _ S S.length 0 (by omega), List.drop_zero]

theorem every_true_iff (S : List α) (p : α → Bool) :
    every S p = true ↔ ∀ x ∈ S, p x = true := by
  unfold every all_of find_if_not
  rw [beq_iff_eq, find_if_eq_length_iff _ S S.length 0 (by omega), List.drop_zero]
  simp

/-- C20: `filter(S, p)` equals `S` if and only if `none(S, p)` is true, and
`filter(S, p)` is empty if and only if `every(S, p)` is true. -/
theorem filter_agrees_with_aggregations (S : List α) (p : α → Bool) :
    (filter S p = S ↔ none S p = true) ∧
    (filter S p = [] ↔ every S p = true) := by
  constructor
  · rw [filter_eq, none_true_iff, List.filter_eq_self]
    simp
  · rw [filter_eq, every_true_iff, List.filter_eq_nil_iff]
    simp

/-! ## Callbacks that raise -/

theorem drop_cons_inv {l : List α} {i : Nat} {y : α} {rest : List α}
    (h : l.drop i = y :: rest) :
    i < l.length ∧ l[i]? = Option.some y ∧ l.drop (i + 1) = rest := by
  have hlt : i < l.length := by
    by_contra hcon
    rw [List.drop_eq_nil_iff.mpr (by omega)] at h
    exact List.noConfusion h
  rw [List.drop_eq_getElem_cons hlt] at h
  injection h with h1 h2
  exact ⟨hlt, by rw [List.getElem?_eq_getElem hlt, h1], h2⟩

theorem take_succ_set {l : List α} {i : Nat} (v : α) (h : i < l.length) :
    (l.set i v).take (i + 1) = l.take i ++ [v] := by
  have ht0 : (l.set i v).take i = l.take i := by
    rw [List.set_take]
    exact List.set_eq_of_length_le (by rw [List.length_take]; omega)
  rw [List.take_succ, List.getElem?_set, ht0]
  simp [h]

theorem noexcept_ne_raised {β : Type v} (body : Except ε β) (e : ε) :
    noexcept body ≠ Outcome.raised e := by
  cases body with
  | ok v => intro h; exact Outcome.noConfusion h
  | error e0 => intro h; exact Outcome.noConfusion h

theorem for_each_E_fault (f : α → Except ε Unit) (cont : List α) (x : α) (post : List α)
    (e : ε) (hx : f x = Except.error e) :
    ∀ (pre : List α) (n first : Nat), first + n = cont.length →
      cont.drop first = pre ++ x :: post → (∀ y ∈ pre, f y = Except.ok ()) →
      for_each_E f cont n first = Except.error e := by
  intro pre
  induction pre with
  | nil =>
    intro n first hn hd _
    obtain ⟨hlt, hget, _⟩ := drop_cons_inv (by simpa using hd)
    obtain ⟨m, rfl⟩ : ∃ m, n = m + 1 := ⟨n - 1, by omega⟩
    unfold for_each_E
    rw [hget]
    simp only [hx]
  | cons y pre ih =>
    intro n first hn hd hpre
    obtain ⟨hlt, hget, hrest⟩ := drop_cons_inv (by simpa using hd)
    obtain ⟨m, rfl⟩ : ∃ m, n = m + 1 := ⟨n - 1, by omega⟩
    unfold for_each_E
    rw [hget]
    simp only [hpre y (List.mem_cons_self y pre)]
    exact ih m (first + 1) (by omega) hrest
      (fun z hz => hpre z (List.mem_cons_of_mem y hz))

theorem transform_E_fault (op : α → Except ε α) (g : α → α) (x : α) (post : List α)
    (e : ε) (hx : op x = Except.error e) :
    ∀ (pre : List α) (n first : Nat) (cont : List α), first + n = cont.length →
      cont.drop first = pre ++ x :: post → (∀ y ∈ pre, op y = Except.ok (g y)) →
      transform_E op n first first cont =
        (Except.error e, cont.take first ++ pre.map g ++ x :: post) := by
  intro pre
  induction pre with
  | nil =>
    intro n first cont hn hd _
    obtain ⟨hlt, hget, _⟩ := drop_cons_inv (by simpa using hd)
    obtain ⟨m, rfl⟩ : ∃ m, n = m + 1 := ⟨n - 1, by omega⟩
    unfold transform_E
    rw [hget]
    simp only [hx, List.map_nil, List.append_nil]
    rw [← List.nil_append (x :: post), ← hd, List.take_append_drop]
  | cons y pre ih =>
    intro n first cont hn hd hpre
    obtain ⟨hlt, hget, hrest⟩ := drop_cons_inv (by simpa using hd)
    obtain ⟨m, rfl⟩ : ∃ m, n = m + 1 := ⟨n - 1, by omega⟩
    unfold transform_E
    rw [hget]
    simp only [hpre y (List.mem_cons_self y pre)]
    rw [ih m (first + 1) (cont.set first (g y)) (by rw [List.length_set]; omega)
      (by rw [List.drop_set, if_pos (by omega)]; exact hrest)
      (fun z hz => hpre z (List.mem_cons_of_mem y hz)), take_succ_set (g y) hlt]
    simp

theorem find_if_E_fault (pred : α → Except ε Bool) (cont : List α) (x : α)
    (post : List α) (e : ε) (hx : pred x = Except.error e) :
    ∀ (pre : List α) (n first : Nat), first + n = cont.length →
      cont.drop first = pre ++ x :: post → (∀ y ∈ pre, pred y = Except.ok false) →
      find_if_E pred cont n first = Except.error e := by
  intro pre
  induction pre with
  | nil =>
    intro n first hn hd _
    obtain ⟨hlt, hget, _⟩ := drop_cons_inv (by simpa using hd)
    obtain ⟨m, rfl⟩ : ∃ m, n = m + 1 := ⟨n - 1, by omega⟩
    unfold find_if_E
    rw [hget]
    simp only [hx]
  | cons y pre ih =>
    intro n first hn hd hpre
    obtain ⟨hlt, hget, hrest⟩ := drop_cons_inv (by simpa using hd)
    obtain ⟨m, rfl⟩ : ∃ m, n = m + 1 := ⟨n - 1, by omega⟩
    unfold find_if_E
    rw [hget]
    simp only [hpre y (List.mem_cons_self y pre)]
    exact ih m (first + 1) (by omega) hrest
      (fun z hz => hpre z (List.mem_cons_of_mem y hz))

theorem find_if_E_split (pred : α → Except ε Bool) (q : α → Bool) (cont : List α) (x : α)
    (post : List α) (e : ε) (hx : pred x = Except.error e) :
    ∀ (pre : List α) (n first : Nat), first + n = cont.length →
      cont.drop first = pre ++ x :: post → (∀ y ∈ pre, pred y = Except.ok (q y)) →
      find_if_E pred cont n first = Except.error e ∨
      ∃ (k : Nat) (pre2 : List α), find_if_E pred cont n first = Except.ok k ∧
        k < cont.length ∧ cont.drop (k + 1) = pre2 ++ x :: post ∧
        ∀ y ∈ pre2, pred y = Except.ok (q y) := by
  intro pre
  induction pre with
  | nil =>
    intro n first hn hd _
    obtain ⟨hlt, hget, _⟩ := drop_cons_inv (by simpa using hd)
    obtain ⟨m, rfl⟩ : ∃ m, n = m + 1 := ⟨n - 1, by omega⟩
    left
    unfold find_if_E
    rw [hget]
    simp only [hx]
  | cons y pre ih =>
    intro n first hn hd hpre
    obtain ⟨hlt, hget, hrest⟩ := drop_cons_inv (by simpa using hd)
    obtain ⟨m, rfl⟩ : ∃ m, n = m + 1 := ⟨n - 1, by omega⟩
    unfold find_if_E
    rw [hget]
    simp only [hpre y (List.mem_cons_self y pre)]
    by_cases hq : q y = true
    · right
      exact ⟨first, pre, by simp [hq], hlt, hrest,
        fun z hz => hpre z (List.mem_cons_of_mem y hz)⟩
    · rw [if_neg hq]
      exact ih m (first + 1) (by omega) hrest
        (fun z hz => hpre z (List.mem_cons_of_mem y hz))

theorem remove_if_loop_E_fault (pred : α → Except ε Bool) (q : α → Bool) (x : α)
    (post : List α) (e : ε) (hx : pred x = Except.error e) :
    ∀ (pre : List α) (n first i : Nat) (cont : List α), i + n = cont.length → first < i →
      cont.drop i = pre ++ x :: post → (∀ y ∈ pre, pred y = Except.ok (q y)) →
      remove_if_loop_E pred n first i cont = Except.error e := by
  intro pre
  induction pre with
  | nil =>
    intro n first i cont hn _ hd _
    obtain ⟨hlt, hget, _⟩ := drop_cons_inv (by simpa using hd)
    obtain ⟨m, rfl⟩ : ∃ m, n = m + 1 := ⟨n - 1, by omega⟩
    unfold remove_if_loop_E
    rw [hget]
    simp only [hx]
  | cons y pre ih =>
    intro n first i cont hn hfi hd hpre
    obtain ⟨hlt, hget, hrest⟩ := drop_cons_inv (by simpa using hd)
    obtain ⟨m, rfl⟩ : ∃ m, n = m + 1 := ⟨n - 1, by omega⟩
    unfold remove_if_loop_E
    rw [hget]
    simp only [hpre y (List.mem_cons_self y pre)]
    by_cases hq : q y = true
    · rw [if_pos hq]
      exact ih m first (i + 1) cont (by omega) (by omega) hrest
        (fun z hz => hpre z (List.mem_cons_of_mem y hz))
    · rw [if_neg hq]
      exact ih m (first + 1) (i + 1) (cont.set first y) (by rw [List.length_set]; omega)
        (by omega) (by rw [List.drop_set, if_pos (by omega)]; exact hrest)
        (fun z hz => hpre z (List.mem_cons_of_mem y hz))

theorem reduce_loop_E_fault (callback : α → α → Except ε α) (g : α → α → α)
    (cont : List α) (x : α) (post : List α) (e : ε) :
    ∀ (pre : List α) (n it : Nat) (current : α), it + n = cont.length →
      cont.drop it = pre ++ x :: post →
      (∀ a, ∀ y ∈ pre, callback a y = Except.ok (g a y)) →
      callback (List.foldl g current pre) x = Except.error e →
      reduce_loop_E callback cont n it current = Except.error e := by
  intro pre
  induction pre with
  | nil =>
    intro n it current hn hd _ hx
    obtain ⟨hlt, hget, _⟩ := drop_cons_inv (by simpa using hd)
    obtain ⟨m, rfl⟩ : ∃ m, n = m + 1 := ⟨n - 1, by omega⟩
    unfold reduce_loop_E
    rw [hget]
    simp only [List.foldl_nil] at hx
    simp only [hx]
  | cons y pre ih =>
    intro n it current hn hd hpre hx
    obtain ⟨hlt, hget, hrest⟩ := drop_cons_inv (by simpa using hd)
    obtain ⟨m, rfl⟩ : ∃ m, n = m + 1 := ⟨n - 1, by omega⟩
    unfold reduce_loop_E
    rw [hget]
    simp only [hpre current y (List.mem_cons_self y pre)]
    exact ih m (it + 1) (g current y) (by omega) hrest
      (fun a z hz => hpre a z (List.mem_cons_of_mem y hz)) (by simpa using hx)

theorem for_each_E_total (cont : List α) (n : Nat) :
    ∀ first : Nat,
      for_each_E (fun _ : α => (Except.ok () : Except ε Unit)) cont n first = Except.ok () := by
  induction n with
  | zero => intro first; rfl
  | succ n ih =>
    intro first
    unfold for_each_E
    cases cont[first]? with
    | none => rfl
    | some x => exact ih (first + 1)

theorem transform_E_total (g : α → α) (n : Nat) :
    ∀ (first d_first : Nat) (cont : List α),
      transform_E (fun x => (Except.ok (g x) : Except ε α)) n first d_first cont =
        (Except.ok (), transform g n first d_first cont) := by
  induction n with
  | zero => intro first d_first cont; rfl
  | succ n ih =>
    intro first d_first cont
    unfold transform_E transform
    cases cont[first]? with
    | none => rfl
    | some x => exact ih _ _ _

theorem find_if_E_total (q : α → Bool) (cont : List α) (n : Nat) :
    ∀ first : Nat,
      find_if_E (fun x => (Except.ok (q x) : Except ε Bool)) cont n first =
        Except.ok (find_if q cont n first) := by
  induction n with
  | zero => intro first; rfl
  | succ n ih =>
    intro first
    unfold find_if_E find_if
    cases cont[first]? with
    | none => rfl
    | some x =>
      simp only []
      split
      · rfl
      · exact ih _

theorem remove_if_loop_E_total (q : α → Bool) (n : Nat) :
    ∀ (first i : Nat) (cont : List α),
      remove_if_loop_E (fun x => (Except.ok (q x) : Except ε Bool)) n first i cont =
        Except.ok (remove_if_loop q n first i cont) := by
  induction n with
  | zero => intro first i cont; rfl
  | succ n ih =>
    intro first i cont
    unfold remove_if_loop_E remove_if_loop
    cases cont[i]? with
    | none => rfl
    | some x =>
      simp only []
      split
      · exact ih _ _ _
      · exact ih _ _ _

theorem reduce_loop_E_total (g : α → α → α) (cont : List α) (n : Nat) :
    ∀ (it : Nat) (current : α),
      reduce_loop_E (fun a x => (Except.ok (g a x) : Except ε α)) cont n it current =
        Except.ok (reduce_loop g cont n it current) := by
  induction n with
  | zero => intro it current; rfl
  | succ n ih =>
    intro it current
    unfold reduce_loop_E reduce_loop
    cases cont[it]? with
    | none => rfl
    | some x => exact ih _ _

/-- With a callback that never raises, every operation returns what the
operation without faults returns. -/
theorem total_callback_returns (S : List α) :
    each_E S (fun _ : α => (Except.ok () : Except ε Unit)) = Outcome.returned S ∧
    (∀ g : α → α, map_E S (fun x => (Except.ok (g x) : Except ε α)) =
      (Outcome.returned (map S g), map S g)) ∧
    (∀ q : α → Bool, filter_E S (fun x => (Except.ok (q x) : Except ε Bool)) =
      Outcome.returned (filter S q)) ∧
    (∀ (g : α → α → α) (v : α),
      reduce_E S (fun a x => (Except.ok (g a x) : Except ε α)) v =
        Outcome.returned (reduce S g v)) ∧
    (∀ q : α → Bool, every_E S (fun x => (Except.ok (q x) : Except ε Bool)) =
      Outcome.returned (every S q)) ∧
    (∀ q : α → Bool, some_E S (fun x => (Except.ok (q x) : Except ε Bool)) =
      Outcome.returned (some S q)) ∧
    (∀ q : α → Bool, none_E S (fun x => (Except.ok (q x) : Except ε Bool)) =
      Outcome.returned (none S q)) := by
  refine ⟨?_, ?_, ?_, ?_, ?_, ?_, ?_⟩
  · unfold each_E
    rw [for_each_E_total]
    rfl
  · intro g
    unfold map_E map
    rw [transform_E_total]
    rfl
  · intro q
    unfold filter_E filter remove_if
    rw [find_if_E_total]
    simp only []
    split
    · rw [remove_if_loop_E_total]
      rfl
    · rfl
  · intro g v
    unfold reduce_E reduce
    rw [reduce_loop_E_total]
    rfl
  · intro q
    unfold every_E every all_of find_if_not
    simp only []
    rw [find_if_E_total]
    rfl
  · intro q
    unfold some_E some any_of
    rw [find_if_E_total]
    rfl
  · intro q
    unfold none_E none none_of
    rw [find_if_E_total]
    rfl

/-- C11 as stated fails: on `[1, 2, 3]` with a callback that raises the fault `7` at
the element `2`, neither `each` nor `map` delivers the fault to the caller; both
calls end in `std::terminate`. -/
theorem fault_not_delivered :
    (fun x : Nat => if x = 2 then (Except.error 7 : Except Nat Unit) else Except.ok ()) 2 =
      Except.error 7 ∧
    each_E [1, 2, 3]
      (fun x : Nat => if x = 2 then (Except.error 7 : Except Nat Unit) else Except.ok ()) ≠
        Outcome.raised 7 ∧
    each_E [1, 2, 3]
      (fun x : Nat => if x = 2 then (Except.error 7 : Except Nat Unit) else Except.ok ()) =
        Outcome.terminated ∧
    (map_E [1, 2, 3]
      (fun x : Nat => if x = 2 then (Except.error 7 : Except Nat Nat) else Except.ok (x * 10))).1 ≠
        Outcome.raised 7 ∧
    map_E [1, 2, 3]
      (fun x : Nat => if x = 2 then (Except.error 7 : Except Nat Nat) else Except.ok (x * 10)) =
        (Outcome.terminated, [10, 2, 3]) := by
  refine ⟨rfl, ?_, rfl, ?_, rfl⟩
  · show (Outcome.terminated : Outcome Nat (List Nat)) ≠ Outcome.raised 7
    intro h
    exact Outcome.noConfusion h
  · show (Outcome.terminated : Outcome Nat (List Nat)) ≠ Outcome.raised 7
    intro h
    exact Outcome.noConfusion h

/-- C11, amended: when the callback raises a fault at an element the traversal
reaches, the operation (`each`, `map`, `filter`, `reduce`, `every`, `some`,
`none`) does not catch it, and being `noexcept` it does not deliver it to the
caller either: the call ends in `std::terminate`, and no call ever ends by
delivering a fault.  For `map`, at that point the positions before the fault hold
their rewritten values and the rest their originals. -/
theorem fault_ends_in_terminate (pre post : List α) (x : α) (e : ε) :
    (∀ f : α → Except ε Unit, (∀ y ∈ pre, f y = Except.ok ()) → f x = Except.error e →
      each_E (pre ++ x :: post) f = Outcome.terminated) ∧
    (∀ (op : α → Except ε α) (g : α → α),
      (∀ y ∈ pre, op y = Except.ok (g y)) → op x = Except.error e →
      map_E (pre ++ x :: post) op = (Outcome.terminated, pre.map g ++ x :: post)) ∧
    (∀ (p : α → Except ε Bool) (q : α → Bool),
      (∀ y ∈ pre, p y = Except.ok (q y)) → p x = Except.error e →
      filter_E (pre ++ x :: post) p = Outcome.terminated) ∧
    (∀ (combine : α → α → Except ε α) (g : α → α → α) (v : α),
      (∀ a, ∀ y ∈ pre, combine a y = Except.ok (g a y)) →
      combine (List.foldl g v pre) x = Except.error e →
      reduce_E (pre ++ x :: post) combine v = Outcome.terminated) ∧
    (∀ p : α → Except ε Bool, (∀ y ∈ pre, p y = Except.ok true) → p x = Except.error e →
      every_E (pre ++ x :: post) p = Outcome.terminated) ∧
    (∀ p : α → Except ε Bool, (∀ y ∈ pre, p y = Except.ok false) → p x = Except.error e →
      some_E (pre ++ x :: post) p = Outcome.terminated) ∧
    (∀ p : α → Except ε Bool, (∀ y ∈ pre, p y = Except.ok false) → p x = Except.error e →
      none_E (pre ++ x :: post) p = Outcome.terminated) ∧
    (∀ (S : List α) (e0 : ε),
      (∀ f, each_E S f ≠ Outcome.raised e0) ∧
      (∀ op, (map_E S op).1 ≠ Outcome.raised e0) ∧
      (∀ p, filter_E S p ≠ Outcome.raised e0) ∧
      (∀ combine v, reduce_E S combine v ≠ Outcome.raised e0) ∧
      (∀ p, every_E S p ≠ Outcome.raised e0) ∧
      (∀ p, some_E S p ≠ Outcome.raised e0) ∧
      (∀ p, none_E S p ≠ Outcome.raised e0)) := by
  have hdrop : (pre ++ x :: post).drop 0 = pre ++ x :: post := List.drop_zero _
  refine ⟨?_, ?_, ?_, ?_, ?_, ?_, ?_, ?_⟩
  · intro f hpre hx
    unfold each_E
    rw [for_each_E_fault f _ x post e hx pre _ 0 (by omega) hdrop hpre]
    rfl
  · intro op g hpre hx
    unfold map_E
    rw [transform_E_fault op g x post e hx pre _ 0 _ (by omega) hdrop hpre]
    simp [noexcept]
  · intro p q hpre hx
    unfold filter_E
    rcases find_if_E_split p q (pre ++ x :: post) x post e hx pre
        (pre ++ x :: post).length 0 (by omega) hdrop hpre with
      h | ⟨k, pre2, hk, hlt, hd, hpre2⟩
    · rw [h]
      rfl
    · rw [hk]
      simp only []
      rw [if_pos (show k ≠ (pre ++ x :: post).length by omega), remove_if_loop_E_fault p q x post e hx pre2 _ k (k + 1) _
        (by omega) (by omega) hd hpre2]
      rfl
  · intro combine g v hpre hx
    unfold reduce_E
    rw [reduce_loop_E_fault combine g _ x post e pre _ 0 v (by omega) hdrop hpre hx]
    rfl
  · intro p hpre hx
    unfold every_E
    rw [find_if_E_fault _ _ x post e (by simp only [hx]) pre _ 0 (by omega) hdrop
      (fun y hy => by simp only [hpre y hy, Bool.not_true])]
    rfl
  · intro p hpre hx
    unfold some_E
    rw [find_if_E_fault p _ x post e hx pre _ 0 (by omega) hdrop hpre]
    rfl
  · intro p hpre hx
    unfold none_E
    rw [find_if_E_fault p _ x post e hx pre _ 0 (by omega) hdrop hpre]
    rfl
  · intro S e0
    exact ⟨fun _ => noexcept_ne_raised _ _, fun _ => noexcept_ne_raised _ _,
      fun _ => noexcept_ne_raised _ _, fun _ _ => noexcept_ne_raised _ _,
      fun _ => noexcept_ne_raised _ _, fun _ => noexcept_ne_raised _ _,
      fun _ => noexcept_ne_raised _ _⟩

/-- C11, amended, at `map` on `[1, 2, 3]` with a callback that multiplies by ten
and raises the fault `7` at the element `2`. -/
theorem fault_ends_in_terminate_witness :
    map_E ([1] ++ 2 :: [3])
      (fun x : Nat => if x = 2 then (Except.error 7 : Except Nat Nat) else Except.ok (x * 10)) =
        (Outcome.terminated, [1].map (fun x => x * 10) ++ 2 :: [3]) :=
  (fault_ends_in_terminate [1] [3] 2 7).2.1
    (fun x : Nat => if x = 2 then (Except.error 7 : Except Nat Nat) else Except.ok (x * 10))
    (fun x => x * 10)
    (fun y hy => by
      have h1 : y = 1 := by simpa using hy
      subst h1
      rfl)
    rfl

/-! ## `range` on positions that wrap -/

theorem range_wrap_count_tight (w to_ step : Nat) (k : Nat) :
    ∀ (fuel : Nat) (S : List Nat) (frm : Nat),
      frm + k * step ≤ to_ → to_ < frm + (k + 1) * step →
      frm + (k + 1) * step < 2 ^ w → k < fuel →
      range_wrap w fuel S frm to_ step =
        Option.some (S ++ (List.range (k + 1)).map (fun j : Nat => frm + j * step)) := by
  induction k with
  | zero =>
    intro fuel S frm hle hlt hnw hfuel
    obtain ⟨f, rfl⟩ : ∃ f, fuel = f + 1 := ⟨fuel - 1, by omega⟩
    simp only [Nat.zero_mul, Nat.add_zero, Nat.zero_add, Nat.one_mul] at hle hlt hnw
    have hmod : (frm + step) % 2 ^ w = frm + step := Nat.mod_eq_of_lt hnw
    have hexit : ¬ (frm + step ≤ to_) := by omega
    simp [range_wrap, range_loop, hmod, hexit, List.range_succ]
  | succ k ih =>
    intro fuel S frm hle hlt hnw hfuel
    obtain ⟨f, rfl⟩ : ∃ f, fuel = f + 1 := ⟨fuel - 1, by omega⟩
    simp only [Nat.add_mul, Nat.one_mul] at hle hlt hnw
    have hmod : (frm + step) % 2 ^ w = frm + step := Nat.mod_eq_of_lt (by omega)
    have hcont : frm + step ≤ to_ := by omega
    have hrec := ih f (S ++ [frm]) (frm + step) (by omega)
      (by simp only [Nat.add_mul, Nat.one_mul]; omega)
      (by simp only [Nat.add_mul, Nat.one_mul]; omega) (by omega)
    unfold range_wrap at hrec ⊢
    unfold range_loop
    simp only [hmod, hcont, decide_True, if_true]
    rw [hrec, List.range_succ_eq_map (k + 1), List.map_cons, List.map_map]
    have hfun : ((fun j : Nat => frm + j * step) ∘ Nat.succ) =
        (fun j : Nat => frm + step + j * step) := by
      funext j
      simp only [Function.comp_apply, Nat.succ_eq_add_one]
      ring
    rw [hfun]
    simp

theorem range_wrap_top_never_exits (w step : Nat) (fuel : Nat) :
    ∀ (S : List Nat) (frm : Nat),
      range_wrap w fuel S frm (2 ^ w - 1) step = Option.none := by
  induction fuel with
  | zero => intro S frm; rfl
  | succ fuel ih =>
    intro S frm
    have hlt : (frm + step) % 2 ^ w < 2 ^ w := Nat.mod_lt _ (Nat.two_pow_pos w)
    have hle : (frm + step) % 2 ^ w ≤ 2 ^ w - 1 := by omega
    have hrec := ih (S ++ [frm]) ((frm + step) % 2 ^ w)
    unfold range_wrap at hrec ⊢
    unfold range_loop
    simp only [hle, decide_True, if_true]
    exact hrec

/-- C4 as stated fails on positions that wrap: with 8-bit unsigned positions,
`from = 250 <= to = 255` and `step = 1`, the increment of `255` wraps to `0 <= 255`
and `range` never returns, whatever the fuel. -/
theorem range_ascending_wraps_forever :
    250 ≤ 255 ∧ 1 ≤ 1 ∧ (255 + 1) % 2 ^ 8 = 0 ∧
    ∀ fuel : Nat, range_wrap 8 fuel [] 250 255 1 = Option.none :=
  ⟨by decide, by decide, by decide, fun fuel => range_wrap_top_never_exits 8 1 fuel [] 250⟩

/-- C4, amended: for `from <= to` and `step >= 1`, when the increment `from += step`
does not wrap, `range(S, from, to, step)` (given enough fuel to finish) appends
exactly `from + k*step` for `k = 0 .. floor((to - from)/step)`, in increasing
order; every appended value is `<= to` and the last one plus `step` exceeds `to`.
This holds over `w`-bit unsigned positions when the last appended value plus
`step` stays below `2^w` (in particular when `to + step < 2^w`), and over
unbounded integers.  `range(S, 0, 4, 1)` appends `[0,1,2,3,4]` and
`range(S, 0, 4, 2)` appends `[0,2,4]`. -/
theorem range_ascending_no_wrap (w : Nat) (S : List Nat) (frm to_ step fuel : Nat)
    (hft : frm ≤ to_) (hstep : 1 ≤ step)
    (hnowrap : frm + ((to_ - frm) / step + 1) * step < 2 ^ w)
    (hfuel : (to_ - frm) / step < fuel) :
    range_wrap w fuel S frm to_ step =
      Option.some (S ++ (List.range ((to_ - frm) / step + 1)).map
        (fun k : Nat => frm + k * step)) ∧
    List.Pairwise (fun x y : Nat => x < y)
      ((List.range ((to_ - frm) / step + 1)).map (fun k : Nat => frm + k * step)) ∧
    (∀ v ∈ (List.range ((to_ - frm) / step + 1)).map (fun k : Nat => frm + k * step),
      frm ≤ v ∧ v ≤ to_ ∧ v < 2 ^ w) ∧
    to_ < frm + (to_ - frm) / step * step + step ∧
    (∀ w0 : Nat, to_ + step < 2 ^ w0 →
      frm + ((to_ - frm) / step + 1) * step < 2 ^ w0) ∧
    (∀ (Z : List Int) (a b s : Int) (n : Nat), a ≤ b → 1 ≤ s → ((b - a) / s).toNat < n →
      range n Z a b s =
        Option.some (Z ++ (List.range (((b - a) / s).toNat + 1)).map
          (fun k : Nat => a + k * s)) ∧
      List.Pairwise (fun x y : Int => x < y)
        ((List.range (((b - a) / s).toNat + 1)).map (fun k : Nat => a + k * s)) ∧
      (∀ v ∈ (List.range (((b - a) / s).toNat + 1)).map (fun k : Nat => a + k * s), v ≤ b) ∧
      b < a + (((b - a) / s).toNat : Int) * s + s) ∧
    range_wrap 8 5 S 0 4 1 = Option.some (S ++ [0, 1, 2, 3, 4]) ∧
    range_wrap 8 3 S 0 4 2 = Option.some (S ++ [0, 2, 4]) ∧
    (∀ Z : List Int, range 5 Z 0 4 1 = Option.some (Z ++ [0, 1, 2, 3, 4]) ∧
      range 3 Z 0 4 2 = Option.some (Z ++ [0, 2, 4])) := by
  have hlow : (to_ - frm) / step * step ≤ to_ - frm := Nat.div_mul_le_self _ _
  have hhigh : to_ - frm < (to_ - frm) / step * step + step :=
    Nat.lt_div_mul_add (by omega)
  have h1 : frm + (to_ - frm) / step * step ≤ to_ := by omega
  have h2 : to_ < frm + ((to_ - frm) / step + 1) * step := by
    rw [Nat.add_mul, Nat.one_mul]; omega
  refine ⟨range_wrap_count_tight w to_ step _ fuel S frm h1 h2 hnowrap hfuel,
    ?_, ?_, by omega, ?_, ?_, ?_, ?_, ?_⟩
  · rw [List.pairwise_map]
    refine (List.pairwise_lt_range _).imp ?_
    intro i j hij
    have : i * step < j * step := Nat.mul_lt_mul_of_pos_right hij (by omega)
    omega
  · intro v hv
    obtain ⟨k, hk, rfl⟩ := List.mem_map.mp hv
    have hk2 : k < (to_ - frm) / step + 1 := List.mem_range.mp hk
    have hk3 : k * step ≤ (to_ - frm) / step * step := Nat.mul_le_mul_right _ (by omega)
    rw [Nat.add_mul, Nat.one_mul] at hnowrap
    exact ⟨Nat.le_add_right _ _, by omega, by omega⟩
  · intro w0 hw0
    rw [Nat.add_mul, Nat.one_mul]
    omega
  · intro Z a b s n hab hs hn
    obtain ⟨r1, r2, r3, r4, _, _⟩ := range_ascending_unbounded Z a b s n hab hs hn
    exact ⟨r1, r2, r3, r4⟩
  · simp [range_wrap, range_loop]
  · simp [range_wrap, range_loop]
  · intro Z
    constructor
    · simp [range, range_loop]
    · simp [range, range_loop]

/-- C4, amended, at 8-bit positions: `range([7], 0, 254, 5)` appends `0, 5, ..., 250`;
the last increment gives `255`, which does not wrap, although `to + step` is `259`. -/
theorem range_ascending_no_wrap_witness :
    range_wrap 8 51 [7] 0 254 5 =
      Option.some ([7] ++ (List.range ((254 - 0) / 5 + 1)).map
        (fun k : Nat => 0 + k * 5)) :=
  (range_ascending_no_wrap 8 [7] 0 254 5 51 (by decide) (by decide) (by decide)
    (by decide)).1

/-- C5 as stated fails on positions that wrap: with 8-bit unsigned positions,
`from = 255 > to = 10` and the default `step = 1`, the increment of `255` wraps to
`0 <= 10`, and `range` appends the twelve values `255, 0, 1, ..., 10`. -/
theorem range_descending_wraps :
    10 < 255 ∧ (255 + 1) % 2 ^ 8 = 0 ∧
    range_wrap 8 12 [] 255 10 1 =
      Option.some [255, 0, 1, 2, 3, 4, 5, 6, 7, 8, 9, 10] ∧
    range_wrap 8 12 [] 255 10 1 ≠ Option.some ([] ++ [255]) := by
  decide

theorem range_wrap_single_iff (w : Nat) (S : List Nat) (frm to_ step fuel : Nat) :
    range_wrap w (fuel + 1) S frm to_ step = Option.some (S ++ [frm]) ↔
      to_ < (frm + step) % 2 ^ w := by
  unfold range_wrap
  unfold range_loop
  simp only []
  by_cases hle : (frm + step) % 2 ^ w ≤ to_
  · simp only [hle, decide_True, if_true]
    constructor
    · intro h
      rw [range_loop_append] at h
      obtain ⟨gen, hgen, hR⟩ := Option.map_eq_some'.mp h
      obtain ⟨rest, hrest⟩ := range_loop_head _ _ to_ step fuel _ gen hgen
      rw [hrest] at hR
      simp at hR
    · intro h
      omega
  · simp only [hle, decide_False]
    constructor
    · intro _
      omega
    · intro _
      rfl

/-- C5, amended: for `from > to` and a non-negative `step`, when the increment
`from += step` does not wrap, `range(S, from, to, step)` appends exactly one
value, `from`.  This holds over unbounded integers and over `w`-bit unsigned
positions with `from + step < 2^w`; over `w`-bit positions in general, exactly
one value is appended if and only if `(from + step) mod 2^w` exceeds `to`.
`range(S, 5, 1, 1)` appends exactly `[5]`. -/
theorem range_descending_no_wrap (w : Nat) (S : List Nat) (frm to_ step fuel : Nat)
    (hft : to_ < frm) (hnowrap : frm + step < 2 ^ w) :
    range_wrap w (fuel + 1) S frm to_ step = Option.some (S ++ [frm]) ∧
    (∀ w0 : Nat, range_wrap w0 (fuel + 1) S frm to_ step = Option.some (S ++ [frm]) ↔
      to_ < (frm + step) % 2 ^ w0) ∧
    (∀ (Z : List Int) (a b s : Int) (n : Nat), b < a → 0 ≤ s →
      range (n + 1) Z a b s = Option.some (Z ++ [a])) ∧
    range_wrap 8 1 S 5 1 1 = Option.some (S ++ [5]) ∧
    (∀ Z : List Int, range 1 Z 5 1 1 = Option.some (Z ++ [5])) := by
  have hmod : (frm + step) % 2 ^ w = frm + step := Nat.mod_eq_of_lt hnowrap
  refine ⟨?_, fun w0 => range_wrap_single_iff w0 S frm to_ step fuel, ?_, ?_, ?_⟩
  · rw [range_wrap_single_iff, hmod]
    omega
  · intro Z a b s n hba hs
    exact (range_descending_unbounded Z a b s n hba hs).1
  · simp [range_wrap, range_loop]
  · intro Z
    simp [range, range_loop]

/-- C5, amended, at 8-bit positions: `range([7], 200, 10, 55)` appends exactly `[200]`,
the increment giving `255`. -/
theorem range_descending_no_wrap_witness :
    range_wrap 8 1 [7] 200 10 55 = Option.some ([7] ++ [200]) :=
  (range_descending_no_wrap 8 [7] 200 10 55 0 (by decide) (by decide)).1

end functional
